import Mathlib

/-!
Shallow embedding of the chidjimi JSON-to-MessagePack pipeline:
the tokenizer (src/parser/token.rs), the recursive-descent parser
(src/parser/mod.rs) and the MessagePack encoder
(src/message_pack/serialize.rs), together with theorems checking the
specification's claims against these definitions.

Rust panics (`panic!`, `todo!`) are modelled as `none` / no result;
fallible functions return `Except`.
-/

abbrev Str := String

/-- Model of Rust `f64` restricted to the operations the repository uses:
truncation, equality, ordering and the saturating cast to `u64`.  Finite
values are carried as exact rationals (every f64 number is a rational);
the special values infinity, negative infinity and NaN are explicit
constructors so that IEEE-754 comparison and cast semantics are kept. -/
inductive F64 where
  | finite (q : ℚ)
  | inf
  | negInf
  | nan
deriving DecidableEq

/-- Rust `f64::trunc`: round toward zero (`Int.tdiv` is toward-zero
division); infinities and NaN map to themselves. -/
def F64.trunc : F64 → F64
  | .finite q => .finite ((q.num.tdiv (q.den : ℤ) : ℤ) : ℚ)
  | x => x

/-- IEEE-754 `==` on f64: NaN compares unequal to everything (including
itself); finite values compare numerically. -/
def F64.beq : F64 → F64 → Bool
  | .finite a, .finite b => decide (a = b)
  | .inf, .inf => true
  | .negInf, .negInf => true
  | _, _ => false

/-- IEEE-754 `<` on f64: any comparison involving NaN is false. -/
def F64.lt : F64 → F64 → Bool
  | .finite a, .finite b => decide (a < b)
  | .finite _, .inf => true
  | .negInf, .finite _ => true
  | .negInf, .inf => true
  | _, _ => false

/-- Rust saturating cast `as u64` from f64: truncate toward zero, clamp
into `[0, 2^64 - 1]`; NaN casts to 0. -/
def F64.toU64 : F64 → ℕ
  | .finite q => min ((q.num.tdiv (q.den : ℤ)).toNat) (2 ^ 64 - 1)
  | .inf => 2 ^ 64 - 1
  | .negInf => 0
  | .nan => 0

/-- `JsonObject` from src/parser/mod.rs.  The Rust `HashMap` in the
`Object` variant is modelled as an association list maintained by
`insertKV` (last write wins, like `HashMap::insert`). -/
inductive JsonObject where
  | Object (entries : List (Str × JsonObject))
  | Array (elements : List JsonObject)
  | String (s : Str)
  | Number (n : F64)
  | Boolean (b : Bool)
  | Null

/-- Big-endian byte list of the given width, as produced by the Rust
`to_be_bytes` calls. -/
def beBytes : ℕ → ℕ → List ℕ
  | 0, _ => []
  | w + 1, v => beBytes w (v / 256) ++ [v % 256]

/-- `serialize_int` from src/message_pack/serialize.rs: the body is
`todo!()`, i.e. an unconditional panic, modelled as `none`. -/
def serialize_int (_val : F64) : Option (List ℕ) := none

/-- `serialize_uint` from src/message_pack/serialize.rs.  The `as u8` /
`as u16` / `as u32` casts are written as reductions modulo the target
width (the surrounding guards make them value-preserving). -/
def serialize_uint (val : ℕ) : List ℕ :=
  if val ≤ 2 ^ 7 - 1 then [val % 256]
  else if val ≤ 255 then [0xcc, val % 256]
  else if val ≤ 65535 then 0xcd :: beBytes 2 (val % 2 ^ 16)
  else if val ≤ 4294967295 then 0xce :: beBytes 4 (val % 2 ^ 32)
  else 0xcf :: beBytes 8 (val % 2 ^ 64)

/-- `serialize` from src/message_pack/serialize.rs.  The `todo!()` arms
(non-integer numbers, and the catch-all for `Object`, `Array`, `String`)
are modelled as `none`. -/
def serialize : JsonObject → Option (List ℕ)
  | .Null => some [0xc0]
  | .Boolean false => some [0xc2]
  | .Boolean true => some [0xc3]
  | .Number val =>
      if F64.beq val (F64.trunc val) then
        if F64.lt val (F64.finite 0) then serialize_int val
        else some (serialize_uint (F64.toU64 val))
      else none
  | _ => none

/-! Helper lemmas about `serialize` on integral numbers. -/

theorem F64.trunc_intCast (z : ℤ) :
    F64.trunc (F64.finite (z : ℚ)) = F64.finite (z : ℚ) := by
  simp [F64.trunc, Int.tdiv_one]

theorem serialize_intCast_nonneg (z : ℤ) (hz : 0 ≤ z) :
    serialize (.Number (.finite (z : ℚ)))
      = some (serialize_uint (min z.toNat (2 ^ 64 - 1))) := by
  have hlt : ¬ ((z : ℚ) < 0) := by exact_mod_cast not_lt.mpr hz
  simp [serialize, F64.trunc_intCast, F64.beq, F64.lt, F64.toU64, hlt,
    Int.tdiv_one]

theorem serialize_intCast_neg (z : ℤ) (hz : z < 0) :
    serialize (.Number (.finite (z : ℚ))) = none := by
  have hlt : ((z : ℚ) < 0) := by exact_mod_cast hz
  simp [serialize, F64.trunc_intCast, F64.beq, F64.lt, hlt, serialize_int]

theorem serialize_natCast (n : ℕ) (hn : n < 2 ^ 64) :
    serialize (.Number (.finite (n : ℚ)))
      = some (serialize_uint n) := by
  have h := serialize_intCast_nonneg (n : ℤ) (Int.natCast_nonneg n)
  rw [Int.cast_natCast] at h
  rw [h, Int.toNat_natCast, min_eq_left (by omega)]

/-- The unsigned encoding exactly as the specification words it: the
smallest applicable family among positive fixint (one byte, up to 127),
`0xcc` + 1 byte (uint8, up to 255), `0xcd` + 2 big-endian bytes (uint16,
up to 65535), `0xce` + 4 big-endian bytes (uint32, up to 4294967295),
else `0xcf` + 8 big-endian bytes (uint64). -/
def specUintEncoding (n : ℕ) : List ℕ :=
  if n ≤ 127 then [n]
  else if n ≤ 255 then 0xcc :: beBytes 1 n
  else if n ≤ 65535 then 0xcd :: beBytes 2 n
  else if n ≤ 4294967295 then 0xce :: beBytes 4 n
  else 0xcf :: beBytes 8 n

theorem serialize_uint_eq_spec (n : ℕ) (hn : n < 2 ^ 64) :
    serialize_uint n = specUintEncoding n := by
  unfold serialize_uint specUintEncoding
  norm_num [beBytes]
  split_ifs <;>
    first
      | omega
      | (simp [Nat.mod_eq_of_lt, Nat.lt_of_le_of_lt, hn] <;> omega)

theorem uint_encoding_matches_spec (n : ℕ) (hn : n < 2 ^ 64) :
    serialize (.Number (.finite (n : ℚ))) = some (specUintEncoding n) := by
  rw [serialize_natCast n hn, serialize_uint_eq_spec n hn]

/-- C1: the claim says `serialize` succeeds on every `JsonObject`
variant with no failure mode.  The code refutes this: the `Object`,
`Array` and `String` arms, non-integer numbers, NaN, and all negative
integers reach `todo!()` panics (modelled `none`). -/
theorem C1_encoder_not_total :
    serialize (.String "") = none
    ∧ serialize (.Array []) = none
    ∧ serialize (.Object []) = none
    ∧ serialize (.Number (.finite (-1))) = none
    ∧ serialize (.Number (.finite (mkRat 1 2))) = none
    ∧ serialize (.Number .nan) = none := by
  decide

/-- C4: the claim says negative exact-integer numbers get the smallest
MessagePack signed encoding (`-1 → [0xff]`, `-32 → [0xe0]`,
`-33 → [0xd0,0xdf]`, `-128 → [0xd0,0x80]`, `-129 → [0xd1,0xff,0x7f]`).
The code refutes this: `serialize_int` is `todo!()`, so every negative
integer panics (modelled `none`). -/
theorem C4_negative_encoding_stubbed :
    serialize (.Number (.finite (-1))) = none
    ∧ serialize (.Number (.finite (-32))) = none
    ∧ serialize (.Number (.finite (-33))) = none
    ∧ serialize (.Number (.finite (-128))) = none
    ∧ serialize (.Number (.finite (-129))) = none := by
  decide

/-- C5: for every exact nonnegative integer representable in a `u64`,
`serialize` produces the smallest applicable MessagePack unsigned
encoding (positive fixint, uint8, uint16, uint32, uint64 with
big-endian payloads), and the boundary examples of the claim hold
(`0`, `127`, `128`, `255`, `256`, `65535`, `65536`, `4294967295`),
ties taking the smaller header. -/
theorem C5_uint_minimal_encoding :
    (∀ n : ℕ, n < 2 ^ 64 →
        serialize (.Number (.finite (n : ℚ))) = some (specUintEncoding n))
    ∧ serialize (.Number (.finite 0)) = some [0x00]
    ∧ serialize (.Number (.finite 127)) = some [0x7f]
    ∧ serialize (.Number (.finite 128)) = some [0xcc, 0x80]
    ∧ serialize (.Number (.finite 255)) = some [0xcc, 0xff]
    ∧ serialize (.Number (.finite 256)) = some [0xcd, 0x01, 0x00]
    ∧ serialize (.Number (.finite 65535)) = some [0xcd, 0xff, 0xff]
    ∧ serialize (.Number (.finite 65536)) = some [0xce, 0x00, 0x01, 0x00, 0x00]
    ∧ serialize (.Number (.finite 4294967295))
        = some [0xce, 0xff, 0xff, 0xff, 0xff] := by
  refine ⟨uint_encoding_matches_spec, ?_, ?_, ?_, ?_, ?_, ?_, ?_, ?_⟩ <;> decide

/-- Witness for C5 at the concrete input 256: the hypothesis
`256 < 2 ^ 64` holds and the encoding is the spec one. -/
theorem C5_uint_minimal_encoding_witness :
    (256 : ℕ) < 2 ^ 64
    ∧ serialize (.Number (.finite ((256 : ℕ) : ℚ)))
        = some (specUintEncoding 256) :=
  ⟨by norm_num, C5_uint_minimal_encoding.1 256 (by norm_num)⟩

/-- C10: for every exact integer at least `2 ^ 64` (and for positive
infinity) the saturating `as u64` cast clamps to `u64::MAX`, so
`serialize` silently returns the uint64 encoding of `2 ^ 64 - 1`
instead of failing. -/
theorem C10_uint64_saturation :
    (∀ z : ℤ, (2 : ℤ) ^ 64 ≤ z →
        serialize (.Number (.finite (z : ℚ)))
          = some [0xcf, 0xff, 0xff, 0xff, 0xff, 0xff, 0xff, 0xff, 0xff])
    ∧ serialize (.Number .inf)
        = some [0xcf, 0xff, 0xff, 0xff, 0xff, 0xff, 0xff, 0xff, 0xff] := by
  constructor
  · intro z hz
    have h64 : (18446744073709551616 : ℤ) ≤ z := by
      calc (18446744073709551616 : ℤ) = 2 ^ 64 := by norm_num
        _ ≤ z := hz
    rw [serialize_intCast_nonneg z (by omega)]
    have hmin : min z.toNat (2 ^ 64 - 1) = 2 ^ 64 - 1 := by
      have : (2 : ℕ) ^ 64 - 1 = 18446744073709551615 := by norm_num
      omega
    rw [hmin]
    decide
  · decide

/-- Witness for C10 at the concrete input `2 ^ 64`. -/
theorem C10_uint64_saturation_witness :
    serialize (.Number (.finite (((2 : ℤ) ^ 64 : ℤ) : ℚ)))
      = some [0xcf, 0xff, 0xff, 0xff, 0xff, 0xff, 0xff, 0xff, 0xff] :=
  C10_uint64_saturation.1 (2 ^ 64) (le_refl _)

/-! Tokenizer (src/parser/token.rs). -/

/-- `Token` from src/parser/token.rs. -/
inductive Token where
  | OpenBrace
  | CloseBrace
  | OpenBracket
  | CloseBracket
  | Colon
  | Comma
  | String (s : Str)
  | Number (n : F64)
  | Boolean (b : Bool)
  | Null
deriving DecidableEq

/-- `ParseError` from src/parser/token.rs (the `ParseFloatError` payload
of `InvalidNumber` is dropped; nothing in the repository inspects it). -/
inductive ParseError where
  | InvalidNumber
  | UnexpectedEndOfInput
  | InvalidToken
deriving DecidableEq

/-- The string-literal loop of `tokenize`: consume characters up to and
including the next `"`, returning the payload and the remaining input;
at end-of-input the payload is whatever was read so far (the silent
truncation marked `TODO` in the source). -/
def takeStringLit : List Char → List Char × List Char
  | [] => ([], [])
  | c :: rest =>
      if c = '"' then ([], rest)
      else
        let p := takeStringLit rest
        (c :: p.1, p.2)

theorem takeStringLit_length (cs : List Char) :
    (takeStringLit cs).2.length ≤ cs.length := by
  induction cs with
  | nil => simp [takeStringLit]
  | cons c rest ih =>
      by_cases h : c = '"' <;> simp [takeStringLit, h] <;> omega

/-- Characters the number loop of `tokenize` keeps consuming. -/
def numContinuation (c : Char) : Bool :=
  ('0' ≤ c && c ≤ '9') || c = '.' || c = 'e' || c = 'E'

/-- The number loop of `tokenize`: greedily consume digits, `.`, `e`,
`E`. -/
def takeNumRun : List Char → List Char × List Char
  | [] => ([], [])
  | c :: rest =>
      if numContinuation c then
        let p := takeNumRun rest
        (c :: p.1, p.2)
      else ([], c :: rest)

theorem takeNumRun_length (cs : List Char) :
    (takeNumRun cs).2.length ≤ cs.length := by
  induction cs with
  | nil => simp [takeNumRun]
  | cons c rest ih =>
      by_cases h : numContinuation c <;> simp [takeNumRun, h] <;> omega

def isDigitChar (c : Char) : Bool := '0' ≤ c && c ≤ '9'

/-- Numeric value of a digit string. -/
def digitsToNat (ds : List Char) : ℕ :=
  ds.foldl (fun acc c => 10 * acc + (c.toNat - '0'.toNat)) 0

/-- Model of Rust's `str::parse::<f64>` restricted to the strings the
tokenizer can build (a leading digit followed by digits, `.`, `e`, `E`):
accept exactly the grammar `digits ('.' digits*)? (('e'|'E') digits+)?`.
On success the value is idealized as the exact rational denoted by the
literal; no claim depends on the rounded value, only on success or
failure. -/
def parseF64 (cs : List Char) : Option F64 :=
  let ip := cs.takeWhile isDigitChar
  let r1 := cs.dropWhile isDigitChar
  if ip = [] then none
  else
    let fr : List Char × List Char :=
      match r1 with
      | '.' :: r => (r.takeWhile isDigitChar, r.dropWhile isDigitChar)
      | _ => ([], r1)
    match fr.2 with
    | [] =>
        some (.finite ((digitsToNat (ip ++ fr.1) : ℚ) / (10 : ℚ) ^ fr.1.length))
    | e :: r3 =>
        if e = 'e' ∨ e = 'E' then
          let ed := r3.takeWhile isDigitChar
          if ed = [] then none
          else if r3.dropWhile isDigitChar = [] then
            some (.finite ((digitsToNat (ip ++ fr.1) : ℚ) / (10 : ℚ) ^ fr.1.length
              * (10 : ℚ) ^ digitsToNat ed))
          else none
        else none

/-- `assert_next_chars` from src/parser/token.rs: pull exactly
`expected.length` characters (`UnexpectedEndOfInput` if the input runs
out first) and compare them with `expected`; a mismatch is also
`UnexpectedEndOfInput`. -/
def assert_next_chars (input : List Char) (expected : List Char) :
    Except ParseError Unit :=
  if input.length < expected.length then .error .UnexpectedEndOfInput
  else if input.take expected.length = expected then .ok ()
  else .error .UnexpectedEndOfInput

theorem assert_next_chars_eq (input expected : List Char) :
    assert_next_chars input expected =
      if input.take expected.length = expected then .ok ()
      else .error .UnexpectedEndOfInput := by
  unfold assert_next_chars
  split_ifs with h1 h2 <;> try rfl
  exfalso
  have := congrArg List.length h2
  simp [List.length_take] at this
  omega

/-- The `while let` loop of `tokenize` from src/parser/token.rs, on the
remaining characters.  When `assert_next_chars` succeeds the iterator
has advanced past the matched literal, so the loop continues at
`rest.drop expected.length`. -/
def tokenizeAux : List Char → Except ParseError (List Token)
  | [] => .ok []
  | c :: rest =>
      if c = '{' then (tokenizeAux rest).map (Token.OpenBrace :: ·)
      else if c = '}' then (tokenizeAux rest).map (Token.CloseBrace :: ·)
      else if c = '[' then (tokenizeAux rest).map (Token.OpenBracket :: ·)
      else if c = ']' then (tokenizeAux rest).map (Token.CloseBracket :: ·)
      else if c = ':' then (tokenizeAux rest).map (Token.Colon :: ·)
      else if c = ',' then (tokenizeAux rest).map (Token.Comma :: ·)
      else if c = '"' then
        (tokenizeAux (takeStringLit rest).2).map
          (Token.String ⟨(takeStringLit rest).1⟩ :: ·)
      else if isDigitChar c then
        match parseF64 (c :: (takeNumRun rest).1) with
        | some v => (tokenizeAux (takeNumRun rest).2).map (Token.Number v :: ·)
        | none => .error .InvalidNumber
      else if c = 't' then
        match assert_next_chars rest ['r', 'u', 'e'] with
        | .ok _ => (tokenizeAux (rest.drop 3)).map (Token.Boolean true :: ·)
        | .error e => .error e
      else if c = 'f' then
        match assert_next_chars rest ['a', 'l', 's', 'e'] with
        | .ok _ => (tokenizeAux (rest.drop 4)).map (Token.Boolean false :: ·)
        | .error e => .error e
      else if c = 'n' then
        match assert_next_chars rest ['u', 'l', 'l'] with
        | .ok _ => (tokenizeAux (rest.drop 3)).map (Token.Null :: ·)
        | .error e => .error e
      else if c = ' ' ∨ c = '\n' ∨ c = '\t' then tokenizeAux rest
      else .error .InvalidToken
termination_by cs => cs.length
decreasing_by
  all_goals simp only [List.length_cons, List.length_drop]
  all_goals
    first
      | omega
      | (have h := takeStringLit_length rest; omega)
      | (have h := takeNumRun_length rest; omega)

/-- `tokenize` from src/parser/token.rs. -/
def tokenize (input : Str) : Except ParseError (List Token) :=
  tokenizeAux input.data

/-- C7: the claim says reaching end-of-input inside a string literal
surfaces an error.  The code refutes this: the string loop simply stops
at end-of-input and returns the truncated payload as a `String` token,
so `tokenize` succeeds on the unterminated literal `"abc`. -/
theorem C7_unterminated_string_truncated :
    tokenize "\"abc" = .ok [Token.String "abc"] := by
  show tokenizeAux "\"abc".data = _
  rw [show "\"abc".data = ['"', 'a', 'b', 'c'] from rfl]
  rw [tokenizeAux]
  simp [takeStringLit]
  rw [tokenizeAux]
  rfl

/-- C8: after consuming `t`, `f` or `n` the tokenizer yields
`Boolean(true)`, `Boolean(false)` or `Null` exactly when the next
characters are `rue`, `alse` or `ull`, and fails with
`UnexpectedEndOfInput` on any mismatch or truncated literal; every
character matching none of the recognized branches (structural
punctuation, `"`, a digit, `t`/`f`/`n`, whitespace) fails with
`InvalidToken`, at any position; `tru` fails with
`UnexpectedEndOfInput`, `a` with `InvalidToken`, and the malformed
number `123.456.789` with `InvalidNumber`. -/
theorem C8_keyword_and_error_tokens :
    (∀ rest : List Char,
        tokenizeAux ('t' :: rest) =
          if rest.take 3 = ['r', 'u', 'e'] then
            (tokenizeAux (rest.drop 3)).map (Token.Boolean true :: ·)
          else .error .UnexpectedEndOfInput)
    ∧ (∀ rest : List Char,
        tokenizeAux ('f' :: rest) =
          if rest.take 4 = ['a', 'l', 's', 'e'] then
            (tokenizeAux (rest.drop 4)).map (Token.Boolean false :: ·)
          else .error .UnexpectedEndOfInput)
    ∧ (∀ rest : List Char,
        tokenizeAux ('n' :: rest) =
          if rest.take 3 = ['u', 'l', 'l'] then
            (tokenizeAux (rest.drop 3)).map (Token.Null :: ·)
          else .error .UnexpectedEndOfInput)
    ∧ (∀ (c : Char) (rest : List Char),
        c ≠ '{' → c ≠ '}' → c ≠ '[' → c ≠ ']' → c ≠ ':' → c ≠ ',' →
        c ≠ '"' → isDigitChar c = false → c ≠ 't' → c ≠ 'f' → c ≠ 'n' →
        c ≠ ' ' → c ≠ '\n' → c ≠ '\t' →
        tokenizeAux (c :: rest) = .error .InvalidToken)
    ∧ tokenize "tru" = .error .UnexpectedEndOfInput
    ∧ tokenize "a" = .error .InvalidToken
    ∧ tokenize "123.456.789" = .error .InvalidNumber := by
  refine ⟨?_, ?_, ?_, ?_, ?_, ?_, ?_⟩
  · intro rest
    rw [tokenizeAux]
    by_cases h : rest.take 3 = ['r', 'u', 'e'] <;>
      simp [assert_next_chars_eq, isDigitChar, h]
  · intro rest
    rw [tokenizeAux]
    by_cases h : rest.take 4 = ['a', 'l', 's', 'e'] <;>
      simp [assert_next_chars_eq, isDigitChar, h]
  · intro rest
    rw [tokenizeAux]
    by_cases h : rest.take 3 = ['u', 'l', 'l'] <;>
      simp [assert_next_chars_eq, isDigitChar, h]
  · intro c rest h1 h2 h3 h4 h5 h6 h7 hd h8 h9 h10 h11 h12 h13
    rw [tokenizeAux]
    simp [h1, h2, h3, h4, h5, h6, h7, hd, h8, h9, h10, h11, h12, h13]
  · show tokenizeAux "tru".data = _
    rw [show "tru".data = ['t', 'r', 'u'] from rfl]
    rw [tokenizeAux]
    simp [assert_next_chars_eq, isDigitChar]
  · show tokenizeAux "a".data = _
    rw [show "a".data = ['a'] from rfl]
    rw [tokenizeAux]
    simp [isDigitChar]
  · show tokenizeAux "123.456.789".data = _
    rw [show "123.456.789".data
        = ['1', '2', '3', '.', '4', '5', '6', '.', '7', '8', '9'] from rfl]
    rw [tokenizeAux]
    simp [isDigitChar, takeNumRun, numContinuation, parseF64, digitsToNat]

/-- Witness for C8's unrecognized-character clause at the concrete
character `a` (with empty remaining input), every hypothesis
discharged there. -/
theorem C8_keyword_and_error_tokens_witness :
    tokenizeAux ['a'] = .error .InvalidToken :=
  C8_keyword_and_error_tokens.2.2.2.1 'a' [] (by decide) (by decide)
    (by decide) (by decide) (by decide) (by decide) (by decide) (by decide)
    (by decide) (by decide) (by decide) (by decide) (by decide) (by decide)

/-! Parser (src/parser/mod.rs). -/

/-- `HashMap::insert`: overwrite the value at an existing key, otherwise
add the binding. -/
def insertKV : List (Str × JsonObject) → Str → JsonObject →
    List (Str × JsonObject)
  | [], k, v => [(k, v)]
  | (k', v') :: rest, k, v =>
      if k' = k then (k, v) :: rest else (k', v') :: insertKV rest k v

mutual

/-- One dispatch step of `parse` on a consumed token (the body of the
`match token` in the `while let` loop): literals return immediately,
`OpenBracket`/`OpenBrace` enter the container loops, and the remaining
tokens hit the `todo!()` arm (modelled `none`).  The `fuel` argument
only makes the mutual recursion structural; `parse` hands every call
enough fuel so that it is never exhausted on the tokens the theorems
touch. -/
def parseValF : ℕ → Token → List Token → Option (JsonObject × List Token)
  | 0, _, _ => none
  | _ + 1, .Null, rest => some (.Null, rest)
  | _ + 1, .Boolean b, rest => some (.Boolean b, rest)
  | _ + 1, .Number n, rest => some (.Number n, rest)
  | _ + 1, .String s, rest => some (.String s, rest)
  | f + 1, .OpenBracket, rest => arrF f rest []
  | f + 1, .OpenBrace, rest => objF f rest []
  | _ + 1, _, _ => none

/-- The array loop of `parse`: `CloseBracket` consumes and terminates,
`Comma` consumes and continues, anything else is parsed as an element
by the recursive `parse` call (which consumes the peeked token);
end-of-input terminates the loop and returns the array. -/
def arrF : ℕ → List Token → List JsonObject → Option (JsonObject × List Token)
  | 0, _, _ => none
  | _ + 1, [], elems => some (.Array elems, [])
  | _ + 1, .CloseBracket :: rest, elems => some (.Array elems, rest)
  | f + 1, .Comma :: rest, elems => arrF f rest elems
  | f + 1, t :: rest, elems =>
      match parseValF f t rest with
      | some (v, rest') => arrF f rest' (elems ++ [v])
      | none => none

/-- The object loop of `parse`: `CloseBrace` consumes and terminates,
`Comma` consumes and continues, a `String` key must be followed by
`Colon` (else the `panic!("Expected colon after key")`, modelled
`none`) and its value comes from the recursive `parse` call; any other
token is the `panic!("Invalid token inside object")` arm, modelled
`none`; end-of-input terminates the loop and returns the object. -/
def objF : ℕ → List Token → List (Str × JsonObject) →
    Option (JsonObject × List Token)
  | 0, _, _ => none
  | _ + 1, [], elems => some (.Object elems, [])
  | _ + 1, .CloseBrace :: rest, elems => some (.Object elems, rest)
  | f + 1, .Comma :: rest, elems => objF f rest elems
  | f + 1, .String k :: rest, elems =>
      match rest with
      | .Colon :: rest2 =>
          match parseF f rest2 with
          | some (v, rest3) => objF f rest3 (insertKV elems k v)
          | none => none
      | _ => none
  | _ + 1, _ :: _, _ => none

/-- `parse` from src/parser/mod.rs with explicit fuel: an empty token
sequence yields `Null`, otherwise the first token is consumed and
dispatched. -/
def parseF : ℕ → List Token → Option (JsonObject × List Token)
  | 0, _ => none
  | _ + 1, [] => some (.Null, [])
  | f + 1, t :: rest => parseValF f t rest

end

/-- `parse` from src/parser/mod.rs, returning the parsed `JsonObject`
together with the unconsumed tokens (the state of the shared cursor).
`2 * length + 2` fuel covers every call chain the parser can make on
the sequence. -/
def parse (tokens : List Token) : Option (JsonObject × List Token) :=
  parseF (2 * tokens.length + 2) tokens

/-- C2: the claim says a non-key token at object-entry position (such as
`[OpenBrace, Number(1), CloseBrace]`), or a key not followed by
`Colon`, yields a typed structural error.  The code refutes this: the
first hits `panic!("Invalid token inside object")` and the second
`panic!("Expected colon after key")` — process aborts (modelled
`none`), not error values. -/
theorem C2_object_entry_panics :
    parse [.OpenBrace, .Number (F64.finite 1), .CloseBrace] = none
    ∧ parse [.OpenBrace, .String "key", .Null, .CloseBrace] = none :=
  ⟨rfl, rfl⟩

/-- C3: the claim says end-of-input before a container closes, and a
closing token with no open container, are reported as structural
errors.  The code refutes both: an unclosed `[` or `{` silently
returns the partial container when the tokens run out, and a leading
`CloseBracket`/`CloseBrace` hits the `todo!()` arm, a panic (modelled
`none`), not an error value. -/
theorem C3_unmatched_containers :
    parse [.OpenBracket] = some (.Array [], [])
    ∧ parse [.OpenBrace] = some (.Object [], [])
    ∧ parse [.CloseBracket] = none
    ∧ parse [.CloseBrace] = none :=
  ⟨rfl, rfl, rfl, rfl⟩

/-- C6 counterexample: the claim says a `Boolean` token at object-entry
position is accepted as a key and stringified, so
`[OpenBrace, Boolean(false), Colon, Null, CloseBrace]` would parse to
the object `{"false": null}`.  In the code that token hits
`panic!("Invalid token inside object")` (modelled `none`): only
`String` tokens are accepted as keys. -/
theorem C6_boolean_key_panics :
    parse [.OpenBrace, .Boolean false, .Colon, .Null, .CloseBrace] = none := rfl

/-- C6 amended: during object parsing only a `String` token is accepted
at object-entry position; it is consumed as the key, the next token
must be `Colon` (else the missing-colon panic), the value is parsed
recursively and the pair inserted.  `Number` and `Boolean` tokens at
entry position are not stringified into keys: they hit the
invalid-token panic (modelled `none`). -/
theorem C6_only_string_keys :
    (∀ s : Str, parse [.OpenBrace, .String s, .Colon, .Null, .CloseBrace]
        = some (.Object [(s, .Null)], []))
    ∧ (∀ s : Str, parse [.OpenBrace, .String s, .Null, .CloseBrace] = none)
    ∧ (∀ n : F64, parse [.OpenBrace, .Number n, .Colon, .Null, .CloseBrace]
        = none)
    ∧ (∀ b : Bool, parse [.OpenBrace, .Boolean b, .Colon, .Null, .CloseBrace]
        = none) :=
  ⟨fun _ => rfl, fun _ => rfl, fun _ => rfl, fun _ => rfl⟩

/-! A grammar of complete top-level values, used to state the
trailing-token claim: exactly the token sequences the parser consumes
as one value without relying on end-of-input, including the tolerated
leading/trailing/duplicate commas and the comma-free juxtaposition the
loops accept. -/

inductive Kind where
  | val
  | items
  | entries

/-- `Gram .val ts`: `ts` is one complete value.  `Gram .items body`:
`body` is a complete array body (what stands between `[` and `]`).
`Gram .entries body`: a complete object body (between `{` and `}`). -/
inductive Gram : Kind → List Token → Prop where
  | null : Gram .val [.Null]
  | bool (b : Bool) : Gram .val [.Boolean b]
  | num (n : F64) : Gram .val [.Number n]
  | str (s : Str) : Gram .val [.String s]
  | arr {body : List Token} : Gram .items body →
      Gram .val (.OpenBracket :: body ++ [.CloseBracket])
  | obj {body : List Token} : Gram .entries body →
      Gram .val (.OpenBrace :: body ++ [.CloseBrace])
  | inil : Gram .items []
  | icomma {rest : List Token} : Gram .items rest →
      Gram .items (.Comma :: rest)
  | ielem {v rest : List Token} : Gram .val v → Gram .items rest →
      Gram .items (v ++ rest)
  | enil : Gram .entries []
  | ecomma {rest : List Token} : Gram .entries rest →
      Gram .entries (.Comma :: rest)
  | eentry (k : Str) {v rest : List Token} : Gram .val v →
      Gram .entries rest → Gram .entries (.String k :: .Colon :: v ++ rest)

/-- A token sequence that forms one complete top-level value. -/
def Complete (ts : List Token) : Prop := Gram .val ts

/-- Folding `HashMap::insert` over a list of pairs. -/
def insertAll (m : List (Str × JsonObject))
    (kvs : List (Str × JsonObject)) : List (Str × JsonObject) :=
  kvs.foldl (fun acc p => insertKV acc p.1 p.2) m

theorem Gram.val_head {ts : List Token} (h : Gram .val ts) :
    ∃ t v', ts = t :: v' ∧ t ≠ Token.CloseBracket ∧ t ≠ Token.Comma := by
  cases h <;> exact ⟨_, _, rfl, by simp, by simp⟩

theorem arrF_cons_other (f : ℕ) (t : Token) (tl : List Token)
    (elems : List JsonObject) (h1 : t ≠ Token.CloseBracket)
    (h2 : t ≠ Token.Comma) :
    arrF (f + 1) (t :: tl) elems =
      match parseValF f t tl with
      | some (v, rest') => arrF f rest' (elems ++ [v])
      | none => none := by
  cases t <;> simp_all [arrF]

/-- Induction motive for `gram_parse_sound`, by grammar kind: a complete
value parses to a fixed result and hands back exactly the trailing
tokens, for any accumulator and any sufficient fuel; likewise for the
array and object loops up to their closing token. -/
def GramGoal : Kind → List Token → Prop
  | .val, ts => ∃ v, ∀ (extra : List Token) (f : ℕ), 2 * ts.length ≤ f →
      parseF (f + 1) (ts ++ extra) = some (v, extra)
  | .items, ts => ∃ vs, ∀ (elems : List JsonObject) (extra : List Token)
      (f : ℕ), 2 * ts.length + 1 ≤ f →
      arrF f (ts ++ Token.CloseBracket :: extra) elems
        = some (.Array (elems ++ vs), extra)
  | .entries, ts => ∃ kvs, ∀ (elems : List (Str × JsonObject))
      (extra : List Token) (f : ℕ), 2 * ts.length + 1 ≤ f →
      objF f (ts ++ Token.CloseBrace :: extra) elems
        = some (.Object (insertAll elems kvs), extra)

/-- Soundness of the parser over the complete-value grammar. -/
theorem gram_parse_sound {k : Kind} {ts : List Token} (h : Gram k ts) :
    GramGoal k ts := by
  induction h with
  | null =>
      refine ⟨.Null, fun extra f hf => ?_⟩
      simp only [List.length_singleton] at hf
      obtain ⟨f, rfl⟩ : ∃ g, f = g + 1 := ⟨f - 1, by omega⟩
      simp [parseF, parseValF]
  | bool b =>
      refine ⟨.Boolean b, fun extra f hf => ?_⟩
      simp only [List.length_singleton] at hf
      obtain ⟨f, rfl⟩ : ∃ g, f = g + 1 := ⟨f - 1, by omega⟩
      simp [parseF, parseValF]
  | num n =>
      refine ⟨.Number n, fun extra f hf => ?_⟩
      simp only [List.length_singleton] at hf
      obtain ⟨f, rfl⟩ : ∃ g, f = g + 1 := ⟨f - 1, by omega⟩
      simp [parseF, parseValF]
  | str s =>
      refine ⟨.String s, fun extra f hf => ?_⟩
      simp only [List.length_singleton] at hf
      obtain ⟨f, rfl⟩ : ∃ g, f = g + 1 := ⟨f - 1, by omega⟩
      simp [parseF, parseValF]
  | @arr body hb ihb =>
      obtain ⟨vs, ih⟩ := ihb
      refine ⟨.Array vs, fun extra f hf => ?_⟩
      simp only [List.length_cons, List.length_append, List.length_singleton] at hf
      obtain ⟨g, rfl⟩ : ∃ g, f = g + 2 := ⟨f - 2, by omega⟩
      have step : parseF (g + 2 + 1)
          ((Token.OpenBracket :: body ++ [Token.CloseBracket]) ++ extra)
          = arrF (g + 1) (body ++ Token.CloseBracket :: extra) [] := by
        simp [parseF, parseValF]
      rw [step]
      rw [ih [] extra (g + 1) (by omega)]
      simp
  | @obj body hb ihb =>
      obtain ⟨kvs, ih⟩ := ihb
      refine ⟨.Object (insertAll [] kvs), fun extra f hf => ?_⟩
      simp only [List.length_cons, List.length_append, List.length_singleton] at hf
      obtain ⟨g, rfl⟩ : ∃ g, f = g + 2 := ⟨f - 2, by omega⟩
      have step : parseF (g + 2 + 1)
          ((Token.OpenBrace :: body ++ [Token.CloseBrace]) ++ extra)
          = objF (g + 1) (body ++ Token.CloseBrace :: extra) [] := by
        simp [parseF, parseValF]
      rw [step]
      rw [ih [] extra (g + 1) (by omega)]
  | inil =>
      refine ⟨[], fun elems extra f hf => ?_⟩
      obtain ⟨g, rfl⟩ : ∃ g, f = g + 1 := ⟨f - 1, by omega⟩
      simp [arrF]
  | icomma hr ihr =>
      obtain ⟨vs, ih⟩ := ihr
      refine ⟨vs, fun elems extra f hf => ?_⟩
      simp only [List.length_cons] at hf
      obtain ⟨g, rfl⟩ : ∃ g, f = g + 1 := ⟨f - 1, by omega⟩
      simp only [List.cons_append, arrF]
      exact ih elems extra g (by omega)
  | @ielem v rest hv hr ihv ihr =>
      obtain ⟨val, ihv'⟩ := ihv
      obtain ⟨vs, ihr'⟩ := ihr
      refine ⟨val :: vs, fun elems extra f hf => ?_⟩
      obtain ⟨t, v', rfl, ht1, ht2⟩ := hv.val_head
      simp only [List.length_append, List.length_cons] at hf
      obtain ⟨g, rfl⟩ : ∃ g, f = g + 1 := ⟨f - 1, by omega⟩
      have lhs : ((t :: v') ++ rest) ++ Token.CloseBracket :: extra
          = t :: (v' ++ (rest ++ Token.CloseBracket :: extra)) := by
        simp
      rw [lhs, arrF_cons_other g t _ elems ht1 ht2]
      have hval := ihv' (rest ++ Token.CloseBracket :: extra) g
        (by simp only [List.length_cons]; omega)
      simp only [List.cons_append, parseF] at hval
      simp only [hval]
      rw [ihr' (elems ++ [val]) extra g (by omega)]
      simp
  | enil =>
      refine ⟨[], fun elems extra f hf => ?_⟩
      obtain ⟨g, rfl⟩ : ∃ g, f = g + 1 := ⟨f - 1, by omega⟩
      simp [objF, insertAll]
  | ecomma hr ihr =>
      obtain ⟨kvs, ih⟩ := ihr
      refine ⟨kvs, fun elems extra f hf => ?_⟩
      simp only [List.length_cons] at hf
      obtain ⟨g, rfl⟩ : ∃ g, f = g + 1 := ⟨f - 1, by omega⟩
      simp only [List.cons_append, objF]
      exact ih elems extra g (by omega)
  | @eentry k v rest hv hr ihv ihr =>
      obtain ⟨val, ihv'⟩ := ihv
      obtain ⟨kvs, ihr'⟩ := ihr
      refine ⟨(k, val) :: kvs, fun elems extra f hf => ?_⟩
      obtain ⟨t, v', rfl, ht1, ht2⟩ := hv.val_head
      simp only [List.length_cons, List.length_append] at hf
      obtain ⟨g, rfl⟩ : ∃ g, f = g + 2 := ⟨f - 2, by omega⟩
      simp only [List.cons_append, objF, List.append_eq, List.append_assoc]
      have hval := ihv' (rest ++ Token.CloseBrace :: extra) g
        (by simp only [List.length_cons]; omega)
      simp only [List.cons_append] at hval
      simp only [hval]
      rw [ihr' (insertKV elems k val) extra (g + 1) (by omega)]
      simp [insertAll]

/-- C9: for every token sequence that starts with one complete
top-level value, `parse` returns that value and consumes exactly its
tokens, leaving any trailing tokens unconsumed and unreported (for
instance `[Null, Number(1)]` parses to `Null` leaving `[Number(1)]`). -/
theorem C9_trailing_tokens_ignored (ts extra : List Token)
    (h : Complete ts) :
    ∃ v, parse (ts ++ extra) = some (v, extra) ∧ parse ts = some (v, []) := by
  obtain ⟨v, hv⟩ := gram_parse_sound h
  refine ⟨v, ?_, ?_⟩
  · show parseF (2 * (ts ++ extra).length + 2) (ts ++ extra) = some (v, extra)
    exact hv extra (2 * (ts ++ extra).length + 1)
      (by simp only [List.length_append]; omega)
  · show parseF (2 * ts.length + 2) ts = some (v, [])
    have := hv [] (2 * ts.length + 1) (by omega)
    simpa using this

/-- Witness for C9 at the claim's example `[Null, Number(1)]`, with the
completeness hypothesis discharged by the grammar. -/
theorem C9_trailing_tokens_ignored_witness :
    ∃ v, parse ([Token.Null] ++ [Token.Number (F64.finite 1)])
        = some (v, [Token.Number (F64.finite 1)])
      ∧ parse [Token.Null] = some (v, []) :=
  C9_trailing_tokens_ignored [Token.Null] [Token.Number (F64.finite 1)]
    Gram.null
